import Mathlib

/-!
Verification of the meshtastic node-report scripts
(`mesh_nodes_claude.py`, `mesh_nodes.py`, `mesh_direct_nodes.py`).

The pipeline under study: extract a balanced-brace JSON block from free
text, normalize raw node records into peer views, filter by mode and age,
sort by recency, render.  Pure functions are translated directly; Python
`dict` input is an association list in insertion order, Python `None` is
`Option.none`, `datetime.timedelta` and Unix timestamps are integer
seconds.
-/

namespace Mesh

/-! ### extract_balanced_braces (identical in all three scripts) -/

/-- Depth contribution of one character: +1 for an opening brace, -1 for a
closing brace, 0 otherwise. Used only in specifications. -/
def braceDelta (c : Char) : Int :=
  if c = '{' then 1 else if c = '}' then -1 else 0

/-- Running brace depth of a character list (sum of `braceDelta`). -/
def depthOf (l : List Char) : Int :=
  (l.map braceDelta).sum

/-- The scanning loop of `extract_balanced_braces`, started at the first
opening brace with `count = 0`: `count += 1` on a brace open, `count -= 1`
on a brace close, returning the consumed characters when the counter
reaches zero, `none` when the text ends first. -/
def scanFrom (count : Int) : List Char → Option (List Char)
  | [] => none
  | c :: rest =>
    if c = '{' then (scanFrom (count + 1) rest).map (fun l => c :: l)
    else if c = '}' then
      if count - 1 = 0 then some [c]
      else (scanFrom (count - 1) rest).map (fun l => c :: l)
    else (scanFrom count rest).map (fun l => c :: l)

/-- Character-list form of `extract_balanced_braces`: `text.find('{')`
(skip until the first opening brace, `none` if there is none), then the
counting scan, returning `text[start:end + 1]`. -/
def extractChars : List Char → Option (List Char)
  | [] => none
  | c :: rest => if c = '{' then scanFrom 0 (c :: rest) else extractChars rest

/-- Python `extract_balanced_braces(text)`: extract the first
balanced-brace block of `text`, or `None`. -/
def extract_balanced_braces (text : String) : Option String :=
  (extractChars text.toList).map String.mk

/-! ### parse_age_string (mesh_nodes_claude.py lines 58-83, mesh_nodes.py 29-42) -/

/-- Numeric value of a digit string, as in Python `int(...)`. -/
def digitsToNat (ds : List Char) : Nat :=
  ds.foldl (fun acc c => acc * 10 + (c.toNat - '0'.toNat)) 0

/-- The unit letters accepted by the age regex `(\d+)([smhd])`. -/
def isUnitChar (u : Char) : Bool :=
  u == 's' || u == 'm' || u == 'h' || u == 'd'

/-- Character-list form of `parse_age_string`.  `re.match(r"(\d+)([smhd])", s)`
anchors at the start of the string only: it succeeds exactly when the
maximal leading digit run is nonempty and the character right after it is
one of `s`, `m`, `h`, `d`; everything after that first group is ignored.
The returned `timedelta` is represented by its total number of seconds. -/
def parseAgeChars (cs : List Char) : Option Int :=
  let ds := cs.takeWhile Char.isDigit
  let rest := cs.dropWhile Char.isDigit
  if ds.isEmpty then none
  else
    match rest with
    | [] => none
    | u :: _ =>
      let v : Int := digitsToNat ds
      if u = 's' then some v
      else if u = 'm' then some (v * 60)
      else if u = 'h' then some (v * 3600)
      else if u = 'd' then some (v * 86400)
      else none

/-- Python `parse_age_string(age_str)`, in seconds. -/
def parse_age_string (s : String) : Option Int :=
  parseAgeChars s.toList

/-- Whether a string consists of exactly one `<integer><unit>` group and
nothing else (the acceptance set the specification describes). -/
def exactAgeSpec (cs : List Char) : Bool :=
  let ds := cs.takeWhile Char.isDigit
  match cs.dropWhile Char.isDigit with
  | [u] => !ds.isEmpty && isUnitChar u
  | _ => false

/-- Whether a string begins with one `<integer><unit>` group, trailing
characters allowed (the acceptance set the regex actually implements). -/
def hasLeadingAgeSpec (cs : List Char) : Bool :=
  let ds := cs.takeWhile Char.isDigit
  match cs.dropWhile Char.isDigit with
  | u :: _ => !ds.isEmpty && isUnitChar u
  | [] => false

/-! ### Data model (filter_and_sort_nodes, mesh_nodes_claude.py lines 140-191) -/

/-- The `user` sub-mapping of a raw node record; any field may be absent. -/
structure RawUser where
  longName : Option String
  shortName : Option String
  role : Option String
deriving DecidableEq, Repr

/-- One raw node record of the `Nodes in mesh` table; any field may be
absent.  `snr` is carried opaquely (the scripts never inspect it),
`lastHeard` is a Unix timestamp in seconds, matching the `isinstance(...,
(int, float))` numeric case. -/
structure RawNode where
  user : Option RawUser
  role : Option String
  snr : Option Int
  lastHeard : Option Int
  hopsAway : Option Int
deriving DecidableEq, Repr

/-- The dictionary appended to `node_list` for each surviving node.  The
rendered `last_heard_str` field is display-only and not modelled. -/
structure PeerView where
  name : String
  id : String
  role : String
  snr : Option Int
  hops_away : Option Int
  last_heard : Option Int
deriving DecidableEq, Repr

/-- Python `node.get("user", {})` when the key is absent. -/
def emptyUser : RawUser := { longName := none, shortName := none, role := none }

/-- Python `a or d` for `a` an optional string and `d` a string: `d` when
`a` is `None` or the empty string (both falsy), else the string in `a`. -/
def orStr (a : Option String) (d : String) : String :=
  match a with
  | some s => if s = "" then d else s
  | none => d

/-- Python `str.upper()` restricted to ASCII (`Char.toUpper` on each
character), kept as a plain structural map so concrete values reduce. -/
def pyUpper (s : String) : String :=
  String.mk (s.toList.map Char.toUpper)

/-- Field computation of the per-node loop body (mesh_nodes_claude.py
lines 159-165): `role = (node.get("role") or user.get("role") or
"unknown").upper()`, `name = user.get("longName") or user.get("shortName")
or node_id`, the remaining fields copied through. -/
def normalize_node (node_id : String) (node : RawNode) : PeerView :=
  let user := node.user.getD emptyUser
  { name := orStr user.longName (orStr user.shortName node_id)
    id := node_id
    role := pyUpper (orStr node.role (orStr user.role ("unknown")))
    snr := node.snr
    hops_away := node.hopsAway
    last_heard := node.lastHeard }

/-- Python `pat in hay` on character lists: `pat` occurs as a contiguous
substring of `hay`. -/
def listContains (hay pat : List Char) : Bool :=
  pat.isPrefixOf hay ||
    match hay with
    | [] => false
    | _ :: t => listContains t pat

/-- The three `continue` guards of the loop (mesh_nodes_claude.py lines
167-177), as a keep-predicate on the computed fields: drop when
`mode == "direct"` and `hops_away != 0`; drop when `mode == "routers"` and
neither `"ROUTER"` nor `"REPEATER"` occurs in `role`; drop when the age
filter is truthy (present and nonzero, Python `timedelta` truthiness),
`last_heard` is numeric, and `now - last_heard > age_filter`. -/
def keep_node (mode : String) (age_filter : Option Int) (now : Int) (v : PeerView) : Bool :=
  if mode = "direct" ∧ v.hops_away ≠ some 0 then false
  else if mode = "routers" ∧
      ¬(listContains v.role.toList ("ROUTER").toList = true ∨
        listContains v.role.toList ("REPEATER").toList = true) then false
  else
    match age_filter, v.last_heard with
    | some d, some t => if d ≠ 0 ∧ now - t > d then false else true
    | _, _ => true

/-- Sort key of `node_list.sort(key=lambda x: x["last_heard"] or 0,
reverse=True)`: an absent (or zero) `last_heard` is keyed as 0. -/
def sortKey (v : PeerView) : Int :=
  v.last_heard.getD 0

/-- Stable descending insertion: `v` goes in front of the first element
whose key is strictly smaller, so earlier elements with an equal key stay
in front of it. -/
def insertDesc (v : PeerView) : List PeerView → List PeerView
  | [] => [v]
  | w :: ws => if sortKey w < sortKey v then v :: w :: ws else w :: insertDesc v ws

/-- Python `list.sort(key=..., reverse=True)` is a stable sort by
descending key; any stable sort computes the same list, here a left-fold
of stable descending insertions. -/
def sort_nodes (l : List PeerView) : List PeerView :=
  l.foldl (fun acc v => insertDesc v acc) []

/-- Python `filter_and_sort_nodes(mesh_nodes, mode, age_filter)` with the
current time passed explicitly: normalize each record of the table in
insertion order, keep those passing the mode and age guards, sort by most
recent `last_heard`. -/
def filter_and_sort_nodes (mesh_nodes : List (String × RawNode)) (mode : String)
    (age_filter : Option Int) (now : Int) : List PeerView :=
  sort_nodes ((mesh_nodes.map (fun p => normalize_node p.1 p.2)).filter
    (keep_node mode age_filter now))

/-! ### Balanced blocks (specification side of the extractor) -/

/-- A brace-balanced block: starts with an opening brace, total depth
zero, and every nonempty proper prefix has strictly positive depth (the
block closes exactly at its last character).  Stated over `obj.inits` so
that the predicate is decidable on concrete blocks. -/
def BalancedBlock (obj : List Char) : Prop :=
  obj.head? = some '{' ∧ depthOf obj = 0 ∧
    ∀ p ∈ obj.inits, p ≠ [] → p ≠ obj → 0 < depthOf p

/-- Python truthiness of an optional string: falsy when absent or empty. -/
def falsyStr (o : Option String) : Prop :=
  o = none ∨ o = some ""

/-! ### JSON well-formedness.

Modelled from the spec: `PeerTableParser` "delegates to a standard JSON
decoder" (`json.loads`), which is not part of this repository; the
recursive-descent recognizer below follows the standard JSON grammar
(RFC 8259) and is used only to state that an extracted block is or is not
valid JSON. -/

/-- Skip JSON insignificant whitespace. -/
def skipWs : List Char → List Char
  | c :: cs => if c = ' ' ∨ c = '\t' ∨ c = '\n' ∨ c = '\r' then skipWs cs else c :: cs
  | [] => []

/-- Hexadecimal digit test for `\u` escapes. -/
def isHexDigit (c : Char) : Bool :=
  c.isDigit || ('a' ≤ c && c ≤ 'f') || ('A' ≤ c && c ≤ 'F')

/-- Recognize the remainder of a JSON string after its opening quote,
returning the input past the closing quote. -/
def jsonStringRest : List Char → Option (List Char)
  | [] => none
  | c :: cs =>
    if c = '"' then some cs
    else if c = '\\' then
      match cs with
      | [] => none
      | e :: cs2 =>
        if e = '"' ∨ e = '\\' ∨ e = '/' ∨ e = 'b' ∨ e = 'f' ∨ e = 'n' ∨ e = 'r' ∨ e = 't' then
          jsonStringRest cs2
        else if e = 'u' then
          match cs2 with
          | h1 :: h2 :: h3 :: h4 :: cs3 =>
            if isHexDigit h1 && isHexDigit h2 && isHexDigit h3 && isHexDigit h4 then
              jsonStringRest cs3
            else none
          | _ => none
        else none
    else if c.toNat < 32 then none
    else jsonStringRest cs

/-- Recognize a JSON exponent part (possibly empty). -/
def jsonExpRest (cs : List Char) : Option (List Char) :=
  match cs with
  | e :: t =>
    if e = 'e' ∨ e = 'E' then
      let t1 := match t with
        | s :: t2 => if s = '+' ∨ s = '-' then t2 else s :: t2
        | [] => []
      match t1.takeWhile Char.isDigit with
      | [] => none
      | _ => some (t1.dropWhile Char.isDigit)
    else some cs
  | [] => some cs

/-- Recognize a JSON fraction part (possibly empty) followed by an
exponent part. -/
def jsonFracRest (cs : List Char) : Option (List Char) :=
  match cs with
  | '.' :: t =>
    match t.takeWhile Char.isDigit with
    | [] => none
    | _ => jsonExpRest (t.dropWhile Char.isDigit)
  | _ => jsonExpRest cs

/-- Recognize a JSON number. -/
def jsonNumber (cs : List Char) : Option (List Char) :=
  let cs1 := match cs with
    | '-' :: t => t
    | _ => cs
  match cs1 with
  | [] => none
  | c :: t =>
    if c = '0' then jsonFracRest t
    else if c.isDigit then jsonFracRest (t.dropWhile Char.isDigit)
    else none

mutual

/-- Recognize one JSON value (fuelled). -/
def jsonVal : Nat → List Char → Option (List Char)
  | 0, _ => none
  | fuel + 1, cs =>
    match skipWs cs with
    | [] => none
    | c :: t =>
      if c = '"' then jsonStringRest t
      else if c = '{' then
        match skipWs t with
        | '}' :: t2 => some t2
        | t2 =>
          match jsonMember fuel t2 with
          | some r => jsonObjRest fuel r
          | none => none
      else if c = '[' then
        match skipWs t with
        | ']' :: t2 => some t2
        | t2 =>
          match jsonVal fuel t2 with
          | some r => jsonArrRest fuel r
          | none => none
      else if ('t' :: 'r' :: 'u' :: 'e' :: []).isPrefixOf (c :: t) then some (t.drop 3)
      else if ('f' :: 'a' :: 'l' :: 's' :: 'e' :: []).isPrefixOf (c :: t) then some (t.drop 4)
      else if ('n' :: 'u' :: 'l' :: 'l' :: []).isPrefixOf (c :: t) then some (t.drop 3)
      else jsonNumber (c :: t)

/-- Recognize one `"key": value` object member. -/
def jsonMember : Nat → List Char → Option (List Char)
  | 0, _ => none
  | fuel + 1, cs =>
    match skipWs cs with
    | '"' :: t =>
      match jsonStringRest t with
      | none => none
      | some r1 =>
        match skipWs r1 with
        | ':' :: r2 => jsonVal fuel r2
        | _ => none
    | _ => none

/-- After one object member: a comma and another member, or the closing
brace. -/
def jsonObjRest : Nat → List Char → Option (List Char)
  | 0, _ => none
  | fuel + 1, cs =>
    match skipWs cs with
    | '}' :: t => some t
    | ',' :: t =>
      match jsonMember fuel t with
      | some r => jsonObjRest fuel r
      | none => none
    | _ => none

/-- After one array element: a comma and another element, or the closing
bracket. -/
def jsonArrRest : Nat → List Char → Option (List Char)
  | 0, _ => none
  | fuel + 1, cs =>
    match skipWs cs with
    | ']' :: t => some t
    | ',' :: t =>
      match jsonVal fuel t with
      | some r => jsonArrRest fuel r
      | none => none
    | _ => none

end

/-- Whether a whole string is one valid JSON document (the fuel bound
`3 * length + 3` exceeds any possible recursion on the input). -/
def jsonValid (s : String) : Bool :=
  let cs := s.toList
  match jsonVal (3 * cs.length + 3) cs with
  | some rest => (skipWs rest).isEmpty
  | none => false

/-! ### Concrete sample values used in the claim instances -/

/-- A raw record with every field absent. -/
def nodeEmpty : RawNode :=
  { user := none, role := none, snr := none, lastHeard := none, hopsAway := none }

/-- A raw record with role `Router` but no `hopsAway`. -/
def nodeRouterNoHops : RawNode :=
  { user := none, role := some ("Router"), snr := none, lastHeard := some 50,
    hopsAway := none }

/-- A raw record with the compound role label `router_client`. -/
def nodeCompoundRole : RawNode :=
  { user := none, role := some ("router_client"), snr := none, lastHeard := none,
    hopsAway := none }

/-- A minimal peer view with the given id and timestamp. -/
def pvAt (i : String) (lh : Option Int) : PeerView :=
  { name := i, id := i, role := "UNKNOWN", snr := none, hops_away := none,
    last_heard := lh }

/-! ### Lemmas on the brace scanner -/

@[simp] theorem depthOf_nil : depthOf [] = 0 := rfl

@[simp] theorem depthOf_cons (c : Char) (l : List Char) :
    depthOf (c :: l) = braceDelta c + depthOf l := by
  simp [depthOf]

theorem scanFrom_closes (p : List Char) : ∀ (count : Int), 0 < count →
    (∀ q, q <+: p → q ≠ p → 0 < count + depthOf q) →
    count + depthOf p = 0 →
    ∀ rest, scanFrom count (p ++ rest) = some p := by
  induction p with
  | nil =>
    intro count hc _ htot _
    simp at htot
    omega
  | cons c p ih =>
    intro count hc hpref htot rest
    by_cases h1 : c = '{'
    · subst h1
      have hdelta : braceDelta '{' = 1 := by decide
      rw [List.cons_append, scanFrom, if_pos rfl]
      rw [ih (count + 1) (by omega) ?hq (by rw [depthOf_cons, hdelta] at htot; omega) rest]
      · rfl
      case hq =>
        intro q hq hne
        have h := hpref ('{' :: q) (List.cons_prefix_cons.mpr ⟨rfl, hq⟩)
          (by simp [hne])
        rw [depthOf_cons, hdelta] at h
        omega
    · by_cases h2 : c = '}'
      · subst h2
        have hdelta : braceDelta '}' = -1 := by decide
        by_cases h3 : count = 1
        · subst h3
          have hp : p = [] := by
            by_contra hne
            have h := hpref ['}'] ⟨p, rfl⟩ (by simp [hne])
            rw [depthOf_cons, hdelta] at h
            simp at h
          subst hp
          rw [List.cons_append, List.nil_append, scanFrom]
          simp
        · rw [List.cons_append, scanFrom, if_neg (by simp), if_pos rfl,
            if_neg (by omega)]
          rw [ih (count - 1) (by omega) ?hq2 (by rw [depthOf_cons, hdelta] at htot; omega) rest]
          · rfl
          case hq2 =>
            intro q hq hne
            have h := hpref ('}' :: q) (List.cons_prefix_cons.mpr ⟨rfl, hq⟩)
              (by simp [hne])
            rw [depthOf_cons, hdelta] at h
            omega
      · have hdelta : braceDelta c = 0 := by simp [braceDelta, h1, h2]
        rw [List.cons_append, scanFrom, if_neg h1, if_neg h2]
        rw [ih count hc ?hq3 (by rw [depthOf_cons, hdelta] at htot; omega) rest]
        · rfl
        case hq3 =>
          intro q hq hne
          have h := hpref (c :: q) (List.cons_prefix_cons.mpr ⟨rfl, hq⟩)
            (by simp [hne])
          rw [depthOf_cons, hdelta] at h
          omega

theorem scanFrom_never_closes (cs : List Char) : ∀ (count : Int),
    (∀ p, p <+: cs → p ≠ [] → count + depthOf p ≠ 0) →
    scanFrom count cs = none := by
  induction cs with
  | nil => intro count _; rfl
  | cons c t ih =>
    intro count h
    by_cases h1 : c = '{'
    · subst h1
      have hdelta : braceDelta '{' = 1 := by decide
      rw [scanFrom, if_pos rfl, ih (count + 1) ?hq]
      · rfl
      case hq =>
        intro p hp hne
        have hh := h ('{' :: p) (List.cons_prefix_cons.mpr ⟨rfl, hp⟩) (by simp)
        rw [depthOf_cons, hdelta] at hh
        omega
    · by_cases h2 : c = '}'
      · subst h2
        have hdelta : braceDelta '}' = -1 := by decide
        have hc1 : count - 1 ≠ 0 := by
          have hh := h ['}'] ⟨t, rfl⟩ (by simp)
          rw [depthOf_cons, hdelta, depthOf_nil] at hh
          omega
        rw [scanFrom, if_neg (by simp), if_pos rfl, if_neg hc1,
          ih (count - 1) ?hq2]
        · rfl
        case hq2 =>
          intro p hp hne
          have hh := h ('}' :: p) (List.cons_prefix_cons.mpr ⟨rfl, hp⟩) (by simp)
          rw [depthOf_cons, hdelta] at hh
          omega
      · have hdelta : braceDelta c = 0 := by simp [braceDelta, h1, h2]
        rw [scanFrom, if_neg h1, if_neg h2, ih count ?hq3]
        · rfl
        case hq3 =>
          intro p hp hne
          have hh := h (c :: p) (List.cons_prefix_cons.mpr ⟨rfl, hp⟩) (by simp)
          rw [depthOf_cons, hdelta] at hh
          omega

theorem extractChars_append_of_no_open (pre : List Char) (l : List Char)
    (h : '{' ∉ pre) : extractChars (pre ++ l) = extractChars l := by
  induction pre with
  | nil => rfl
  | cons c pre ih =>
    have hc : c ≠ '{' := fun e => h (e ▸ List.mem_cons_self c pre)
    rw [List.cons_append, extractChars, if_neg hc]
    exact ih (fun hm => h (List.mem_cons_of_mem _ hm))

/-! ### Lemmas on digit runs -/

theorem takeWhile_dropWhile_of_run (p : Char → Bool) (ds rest : List Char)
    (hds : ∀ c ∈ ds, p c = true)
    (hh : ∀ c, rest.head? = some c → p c = false) :
    (ds ++ rest).takeWhile p = ds ∧ (ds ++ rest).dropWhile p = rest := by
  induction ds with
  | nil =>
    cases rest with
    | nil => exact ⟨rfl, rfl⟩
    | cons c t =>
      constructor
      · simp [List.takeWhile_cons, hh c rfl]
      · simp [List.dropWhile_cons, hh c rfl]
  | cons d ds ih =>
    have hd : p d = true := hds d (List.mem_cons_self ..)
    obtain ⟨h1, h2⟩ := ih (fun c hc => hds c (List.mem_cons_of_mem _ hc))
    constructor
    · simp [List.takeWhile_cons, hd, h1]
    · simp [List.dropWhile_cons, hd, h2]

/-! ### Lemmas on the stable descending insertion sort -/

theorem mem_insertDesc (v x : PeerView) (l : List PeerView) :
    x ∈ insertDesc v l ↔ x = v ∨ x ∈ l := by
  induction l with
  | nil => simp [insertDesc]
  | cons w ws ih =>
    by_cases h : sortKey w < sortKey v
    · rw [insertDesc, if_pos h]
      simp only [List.mem_cons]
    · rw [insertDesc, if_neg h]
      simp only [List.mem_cons, ih]
      tauto

theorem pairwise_insertDesc (v : PeerView) (l : List PeerView)
    (h : l.Pairwise (fun a b => sortKey b ≤ sortKey a)) :
    (insertDesc v l).Pairwise (fun a b => sortKey b ≤ sortKey a) := by
  induction l with
  | nil => simp [insertDesc]
  | cons w ws ih =>
    rw [List.pairwise_cons] at h
    obtain ⟨hw, hws⟩ := h
    by_cases hc : sortKey w < sortKey v
    · rw [insertDesc, if_pos hc]
      refine List.Pairwise.cons ?_ (List.Pairwise.cons hw hws)
      intro b hb
      rcases List.mem_cons.mp hb with rfl | hb
      · exact le_of_lt hc
      · exact le_trans (hw b hb) (le_of_lt hc)
    · rw [insertDesc, if_neg hc]
      refine List.Pairwise.cons ?_ (ih hws)
      intro b hb
      rcases (mem_insertDesc v b ws).mp hb with rfl | hb
      · exact le_of_not_lt hc
      · exact hw b hb

theorem insertDesc_perm (v : PeerView) (l : List PeerView) :
    (insertDesc v l).Perm (v :: l) := by
  induction l with
  | nil => exact List.Perm.refl _
  | cons w ws ih =>
    by_cases h : sortKey w < sortKey v
    · rw [insertDesc, if_pos h]
    · rw [insertDesc, if_neg h]
      exact (ih.cons w).trans (List.Perm.swap v w ws)

theorem foldl_insertDesc_pairwise (l : List PeerView) :
    ∀ acc, acc.Pairwise (fun a b => sortKey b ≤ sortKey a) →
      (l.foldl (fun acc v => insertDesc v acc) acc).Pairwise
        (fun a b => sortKey b ≤ sortKey a) := by
  induction l with
  | nil => intro acc h; simpa using h
  | cons v vs ih =>
    intro acc h
    simp only [List.foldl_cons]
    exact ih _ (pairwise_insertDesc v acc h)

theorem foldl_insertDesc_perm (l : List PeerView) :
    ∀ acc, (l.foldl (fun acc v => insertDesc v acc) acc).Perm (acc ++ l) := by
  induction l with
  | nil => intro acc; simp
  | cons v vs ih =>
    intro acc
    simp only [List.foldl_cons]
    refine (ih (insertDesc v acc)).trans ?_
    refine (List.Perm.append_right vs (insertDesc_perm v acc)).trans ?_
    exact List.perm_middle.symm

theorem sort_nodes_pairwise_key (l : List PeerView) :
    (sort_nodes l).Pairwise (fun a b => sortKey b ≤ sortKey a) :=
  foldl_insertDesc_pairwise l [] (List.Pairwise.nil)

theorem sort_nodes_perm (l : List PeerView) : (sort_nodes l).Perm l := by
  simpa using foldl_insertDesc_perm l []

/-! ### Claim theorems -/

/-- C1 (amended): for every text made of a brace-balanced block — in
particular a well-formed JSON object none of whose string literals
contains a brace character — preceded and followed by non-brace text,
`extract_balanced_braces` returns exactly that block's substring,
byte-for-byte; this includes blocks nested to depth 3 and beyond, as the
concrete depth-3 conjunct shows. -/
theorem claim_c1_extract_exact_block :
    (∀ pre obj post : List Char,
      (∀ c ∈ pre, c ≠ '{' ∧ c ≠ '}') →
      (∀ c ∈ post, c ≠ '{' ∧ c ≠ '}') →
      BalancedBlock obj →
      extract_balanced_braces (String.mk (pre ++ obj ++ post)) = some (String.mk obj))
    ∧ extract_balanced_braces ("xx\x7b\"a\": \x7b\"b\": \x7b\"c\": 1\x7d\x7d\x7dyy")
        = some ("\x7b\"a\": \x7b\"b\": \x7b\"c\": 1\x7d\x7d\x7d") := by
  refine ⟨?_, by decide⟩
  intro pre obj post hpre hpost hobj
  obtain ⟨hhead, htot, hpref⟩ := hobj
  cases obj with
  | nil => simp at hhead
  | cons c p =>
    have hc : c = '{' := by simpa using hhead
    subst hc
    have hpre' : '{' ∉ pre := fun hm => (hpre '{' hm).1 rfl
    rw [extract_balanced_braces]
    have htl : (String.mk (pre ++ ('{' :: p) ++ post)).toList
        = pre ++ (('{' :: p) ++ post) := by
      show pre ++ ('{' :: p) ++ post = pre ++ (('{' :: p) ++ post)
      rw [List.append_assoc]
    rw [htl, extractChars_append_of_no_open pre _ hpre',
      List.cons_append, extractChars, if_pos rfl, scanFrom, if_pos rfl]
    have hdopen : braceDelta '{' = 1 := by decide
    rw [zero_add, scanFrom_closes p 1 (by omega) ?hq ?htot2 post]
    · rfl
    case hq =>
      intro q hq hne
      have h := hpref ('{' :: q)
        ((List.mem_inits _ _).mpr (List.cons_prefix_cons.mpr ⟨rfl, hq⟩))
        (by simp) (by simp [hne])
      rw [depthOf_cons, hdopen] at h
      omega
    case htot2 =>
      rw [depthOf_cons, hdopen] at htot
      omega

/-- C1 (counterexample): the text `{"a": "}"}` is a single well-formed
JSON object with no text around it, yet `extract_balanced_braces` returns
the truncated `{"a": "}` because the closing brace inside the string
literal is counted. -/
theorem claim_c1_counterexample :
    extract_balanced_braces ("\x7b\"a\": \"\x7d\"\x7d") ≠ some ("\x7b\"a\": \"\x7d\"\x7d")
    ∧ extract_balanced_braces ("\x7b\"a\": \"\x7d\"\x7d") = some ("\x7b\"a\": \"\x7d")
    ∧ jsonValid ("\x7b\"a\": \"\x7d\"\x7d") = true := by decide

/-- C1 witness: the amended universal statement applied to the concrete
text `x{a}y`. -/
theorem claim_c1_witness :
    extract_balanced_braces (String.mk (['x'] ++ ['{', 'a', '}'] ++ ['y']))
      = some (String.mk ['{', 'a', '}']) :=
  claim_c1_extract_exact_block.1 ['x'] ['{', 'a', '}'] ['y']
    (by decide) (by decide) (by unfold BalancedBlock; decide)

/-- C5: `extract_balanced_braces` returns `none` on text with no opening
brace, and `none` when the depth counter started at the first opening
brace never returns to zero before the end of the text. -/
theorem claim_c5_extract_none :
    (∀ s : String, '{' ∉ s.toList → extract_balanced_braces s = none)
    ∧ (∀ pre rest : List Char, '{' ∉ pre →
        (∀ p ∈ ('{' :: rest).inits, p ≠ [] → depthOf p ≠ 0) →
        extract_balanced_braces (String.mk (pre ++ '{' :: rest)) = none) := by
  constructor
  · intro s h
    rw [extract_balanced_braces]
    have h0 : extractChars s.toList = none := by
      have h1 := extractChars_append_of_no_open s.toList [] h
      simpa using h1
    rw [h0]
    rfl
  · intro pre rest hpre hdepth
    rw [extract_balanced_braces]
    have htl : (String.mk (pre ++ '{' :: rest)).toList = pre ++ '{' :: rest := rfl
    rw [htl, extractChars_append_of_no_open pre _ hpre, extractChars, if_pos rfl,
      scanFrom_never_closes _ 0 ?hq]
    · rfl
    case hq =>
      intro p hp hne
      have h := hdepth p ((List.mem_inits _ _).mpr hp) hne
      omega

/-- C5 witness: both parts at concrete inputs — text without a brace, and
the unclosed text `a{{}b`. -/
theorem claim_c5_witness :
    extract_balanced_braces ("no braces here") = none
    ∧ extract_balanced_braces (String.mk (['a'] ++ '{' :: ['{', '}', 'b'])) = none :=
  ⟨claim_c5_extract_none.1 ("no braces here") (by decide),
   claim_c5_extract_none.2 ['a'] ['{', '}', 'b'] (by decide) (by decide)⟩

/-- C7: `sort_nodes` orders views descending by the key `last_heard or 0`
(absent timestamps keyed as the minimum valid Unix timestamp 0), is a
permutation of its input, places every absent-`last_heard` view after all
views with positive timestamps, and on the timestamps `[100, None, 300]`
produces the order `[300, 100, None]`. -/
theorem claim_c7_sort_descending :
    (∀ l, (sort_nodes l).Pairwise (fun a b => sortKey b ≤ sortKey a))
    ∧ (∀ l, (sort_nodes l).Perm l)
    ∧ (∀ l, (∀ v ∈ l, ∀ t : Int, v.last_heard = some t → 0 < t) →
        (sort_nodes l).Pairwise (fun a b => a.last_heard = none → b.last_heard = none))
    ∧ sort_nodes [pvAt ("a") (some 100), pvAt ("b") none, pvAt ("c") (some 300)]
        = [pvAt ("c") (some 300), pvAt ("a") (some 100), pvAt ("b") none] := by
  refine ⟨sort_nodes_pairwise_key, sort_nodes_perm, ?_, by decide⟩
  intro l hpos
  have hs := sort_nodes_pairwise_key l
  refine List.Pairwise.imp_of_mem ?_ hs
  intro a b ha hb hab hnone
  cases hbl : b.last_heard with
  | none => rfl
  | some t =>
    have hbmem : b ∈ l := (sort_nodes_perm l).mem_iff.mp hb
    have ht := hpos b hbmem t hbl
    have ka : sortKey a = 0 := by simp [sortKey, hnone]
    have kb : sortKey b = t := by simp [sortKey, hbl]
    omega

/-- C7 witness: the positional conjunct applied to a concrete list whose
present timestamps are positive. -/
theorem claim_c7_witness :
    (sort_nodes [pvAt ("a") (some 100), pvAt ("b") none]).Pairwise
      (fun a b => a.last_heard = none → b.last_heard = none) :=
  claim_c7_sort_descending.2.2.1 [pvAt ("a") (some 100), pvAt ("b") none]
    (by decide)

/-- C2 (counterexample): with an active age filter of 3600 seconds, a peer
whose `lastHeard` is absent is retained by `filter_and_sort_nodes`, not
excluded as the claim states — the `isinstance(last_heard, (int, float))`
guard skips the age comparison entirely for absent timestamps. -/
theorem claim_c2_counterexample :
    filter_and_sort_nodes [(("!x"), nodeEmpty)] ("all") (some 3600) 1000000
      = [normalize_node ("!x") nodeEmpty]
    ∧ (normalize_node ("!x") nodeEmpty).last_heard = none := by decide

/-- C2 (amended): when an age filter is active, a view with absent
`lastHeard` is retained (the numeric-type guard skips the age check for
it), and only views whose numeric timestamp is older than the filter are
excluded; when no age filter is active every view is retained (no
connectivity filter applying, mode `all`). -/
theorem claim_c2_age_filter :
    (∀ (v : PeerView) (now d : Int), v.last_heard = none →
        keep_node ("all") (some d) now v = true)
    ∧ (∀ (v : PeerView) (now : Int), keep_node ("all") none now v = true)
    ∧ (∀ (v : PeerView) (now d t : Int), 0 < d → v.last_heard = some t →
        (keep_node ("all") (some d) now v = true ↔ now - t ≤ d)) := by
  refine ⟨?_, ?_, ?_⟩
  · intro v now d hl
    obtain ⟨n, i, r, sn, hp, lh⟩ := v
    simp only at hl
    subst hl
    simp [keep_node]
  · intro v now
    obtain ⟨n, i, r, sn, hp, lh⟩ := v
    simp [keep_node]
  · intro v now d t hd hl
    obtain ⟨n, i, r, sn, hp, lh⟩ := v
    simp only at hl
    subst hl
    simp only [keep_node]
    rw [if_neg (by rintro ⟨h, -⟩; exact absurd h (by decide)),
      if_neg (by rintro ⟨h, -⟩; exact absurd h (by decide))]
    by_cases h : now - t > d
    · rw [if_pos ⟨by omega, h⟩]
      simp
      omega
    · rw [if_neg (by rintro ⟨-, hgt⟩; exact h hgt)]
      simp
      omega

/-- C2 witness: the amended statements at concrete views. -/
theorem claim_c2_witness :
    keep_node ("all") (some 3600) 1000000 (pvAt ("x") none) = true
    ∧ keep_node ("all") none 0 (pvAt ("x") none) = true
    ∧ (keep_node ("all") (some 10) 100 (pvAt ("y") (some 95)) = true ↔
        (100 : Int) - 95 ≤ 10) :=
  ⟨claim_c2_age_filter.1 (pvAt ("x") none) 1000000 3600 rfl,
   claim_c2_age_filter.2.1 (pvAt ("x") none) 0,
   claim_c2_age_filter.2.2 (pvAt ("y") (some 95)) 100 10 95 (by decide) rfl⟩

/-- C6: in mode `direct` the filter keeps exactly the views whose
`hops_away` is the reported value 0; a view with absent `hops_away` is
excluded under any age filter, and the concrete conjunct shows a peer of
role `ROUTER` with absent `hops_away` excluded by the full pipeline. -/
theorem claim_c6_direct_mode :
    (∀ (v : PeerView) (a : Option Int) (now : Int), v.hops_away = none →
        keep_node ("direct") a now v = false)
    ∧ (∀ (v : PeerView) (now : Int),
        keep_node ("direct") none now v = decide (v.hops_away = some 0))
    ∧ filter_and_sort_nodes [(("!r"), nodeRouterNoHops)] ("direct") none 0 = []
    ∧ (normalize_node ("!r") nodeRouterNoHops).role = "ROUTER" := by
  refine ⟨?_, ?_, by decide, by decide⟩
  · intro v a now hh
    obtain ⟨n, i, r, sn, hp, lh⟩ := v
    simp only at hh
    subst hh
    simp [keep_node]
  · intro v now
    obtain ⟨n, i, r, sn, hp, lh⟩ := v
    by_cases h : hp = some 0
    · simp [keep_node, h]
    · simp only at h
      simp [keep_node, h]

/-- C6 witness: both universal conjuncts at a concrete view with absent
`hops_away`. -/
theorem claim_c6_witness :
    keep_node ("direct") none 0 (pvAt ("x") none) = false
    ∧ keep_node ("direct") none 0 (pvAt ("x") none)
        = decide ((pvAt ("x") none).hops_away = some 0) :=
  ⟨claim_c6_direct_mode.1 (pvAt ("x") none) none 0 rfl,
   claim_c6_direct_mode.2.1 (pvAt ("x") none) 0⟩

/-- C8: in mode `routers` the filter keeps exactly the views whose
(already uppercased) role contains `ROUTER` or `REPEATER` as a substring;
the concrete conjuncts show the compound role `ROUTER_CLIENT`, which is
not exactly equal to either label, is kept. -/
theorem claim_c8_routers_substring :
    (∀ (v : PeerView) (now : Int),
        keep_node ("routers") none now v =
          (listContains v.role.toList (("ROUTER").toList) ||
           listContains v.role.toList (("REPEATER").toList)))
    ∧ (normalize_node ("!c") nodeCompoundRole).role = "ROUTER_CLIENT"
    ∧ keep_node ("routers") none 0 (normalize_node ("!c") nodeCompoundRole) = true
    ∧ (normalize_node ("!c") nodeCompoundRole).role ≠ "ROUTER"
    ∧ (normalize_node ("!c") nodeCompoundRole).role ≠ "REPEATER" := by
  refine ⟨?_, by decide, by decide, by decide, by decide⟩
  intro v now
  obtain ⟨n, i, r, sn, hp, lh⟩ := v
  by_cases h1 : listContains r.toList (("ROUTER").toList) = true <;>
    by_cases h2 : listContains r.toList (("REPEATER").toList) = true <;>
      cases lh <;>
        simp [keep_node, h1, h2]

/-- C3: normalization is total (it is a function on every raw record) and
resolves `name` via `user.longName`, then `user.shortName`, then the id,
and `role` via `record.role`, then `user.role`, then `"unknown"`, finally
uppercased; a record with no `user` sub-mapping and no `role` yields role
`UNKNOWN` and name equal to the id.  Falsiness follows Python (`None` or
the empty string). -/
theorem claim_c3_normalize_fallbacks :
    (∀ (i : String) (node : RawNode) (r : String), node.role = some r → r ≠ "" →
        (normalize_node i node).role = pyUpper r)
    ∧ (∀ (i : String) (node : RawNode) (r : String), falsyStr node.role →
        (node.user.getD emptyUser).role = some r → r ≠ "" →
        (normalize_node i node).role = pyUpper r)
    ∧ (∀ (i : String) (node : RawNode), falsyStr node.role →
        falsyStr (node.user.getD emptyUser).role →
        (normalize_node i node).role = "UNKNOWN")
    ∧ (∀ (i : String) (node : RawNode) (nm : String),
        (node.user.getD emptyUser).longName = some nm → nm ≠ "" →
        (normalize_node i node).name = nm)
    ∧ (∀ (i : String) (node : RawNode) (nm : String),
        falsyStr (node.user.getD emptyUser).longName →
        (node.user.getD emptyUser).shortName = some nm → nm ≠ "" →
        (normalize_node i node).name = nm)
    ∧ (∀ (i : String) (node : RawNode),
        falsyStr (node.user.getD emptyUser).longName →
        falsyStr (node.user.getD emptyUser).shortName →
        (normalize_node i node).name = i)
    ∧ (∀ (i : String) (node : RawNode), node.user = none → node.role = none →
        (normalize_node i node).role = "UNKNOWN" ∧ (normalize_node i node).name = i) := by
  refine ⟨?_, ?_, ?_, ?_, ?_, ?_, ?_⟩
  · intro i node r h hne
    simp [normalize_node, orStr, h, hne]
  · intro i node r hf h hne
    rcases hf with hf | hf <;> simp [normalize_node, orStr, hf, h, hne]
  · intro i node hf hg
    have h : (normalize_node i node).role = pyUpper ("unknown") := by
      rcases hf with hf | hf <;> rcases hg with hg | hg <;>
        simp [normalize_node, orStr, hf, hg]
    rw [h]
    decide
  · intro i node nm h hne
    simp [normalize_node, orStr, h, hne]
  · intro i node nm hf h hne
    rcases hf with hf | hf <;> simp [normalize_node, orStr, hf, h, hne]
  · intro i node hf hg
    rcases hf with hf | hf <;> rcases hg with hg | hg <;>
      simp [normalize_node, orStr, hf, hg]
  · intro i node hu hr
    constructor
    · have h : (normalize_node i node).role = pyUpper ("unknown") := by
        simp [normalize_node, orStr, hu, hr, emptyUser]
      rw [h]
      decide
    · simp [normalize_node, orStr, hu, emptyUser]

/-- C3 witness: the fallback chains applied to the fully absent record. -/
theorem claim_c3_witness :
    (normalize_node ("!x") nodeEmpty).role = "UNKNOWN"
    ∧ (normalize_node ("!x") nodeEmpty).name = "!x" :=
  claim_c3_normalize_fallbacks.2.2.2.2.2.2 ("!x") nodeEmpty rfl rfl

/-- C4 (counterexample): the input `1h30m` is not of the exact form
`<integer><unit>`, yet `parse_age_string` accepts it (as one hour),
because the regex match is anchored only at the start of the string. -/
theorem claim_c4_counterexample :
    parse_age_string ("1h30m") = some 3600
    ∧ exactAgeSpec (String.toList ("1h30m")) = false := by decide

/-- C4 (amended): `parse_age_string` accepts exactly the strings that
begin with `<integer><unit>` with unit in s, m, h, d (trailing characters
ignored); parsing `90s` yields 90 seconds, `2h` yields 7200 seconds, and
`abc`, `5x` and `1.5h` each yield absent. -/
theorem claim_c4_age_grammar :
    (∀ cs : List Char, (parseAgeChars cs).isSome = hasLeadingAgeSpec cs)
    ∧ parse_age_string ("90s") = some 90
    ∧ parse_age_string ("2h") = some 7200
    ∧ parse_age_string ("abc") = none
    ∧ parse_age_string ("5x") = none
    ∧ parse_age_string ("1.5h") = none := by
  refine ⟨?_, by decide, by decide, by decide, by decide, by decide⟩
  intro cs
  simp only [parseAgeChars, hasLeadingAgeSpec]
  cases hds : (cs.takeWhile Char.isDigit).isEmpty
  · cases hrest : cs.dropWhile Char.isDigit with
    | nil => simp
    | cons u t =>
      simp only [Bool.false_eq_true, if_false, Bool.not_false, Bool.true_and]
      by_cases h1 : u = 's'
      · simp [h1, isUnitChar]
      · by_cases h2 : u = 'm'
        · simp [h1, h2, isUnitChar]
        · by_cases h3 : u = 'h'
          · simp [h1, h2, h3, isUnitChar]
          · by_cases h4 : u = 'd'
            · simp [h1, h2, h3, h4, isUnitChar]
            · simp [h1, h2, h3, h4, isUnitChar]
  · cases hrest : cs.dropWhile Char.isDigit <;> simp

/-- C10: `parse_age_string` matches only a leading `<integer><unit>` group
and ignores all trailing characters: appending anything after the unit
letter does not change the result, which is always present; concretely
`1h30m` and `1hXYZ` both yield 3600 seconds. -/
theorem claim_c10_age_trailing (ds : List Char) (u : Char) (rest : List Char)
    (hne : ds ≠ []) (hds : ∀ c ∈ ds, Char.isDigit c = true)
    (hu : isUnitChar u = true) :
    parseAgeChars (ds ++ u :: rest) = parseAgeChars (ds ++ [u])
    ∧ (parseAgeChars (ds ++ u :: rest)).isSome = true
    ∧ parse_age_string ("1h30m") = some 3600
    ∧ parse_age_string ("1hXYZ") = some 3600 := by
  have hu4 : ((u = 's' ∨ u = 'm') ∨ u = 'h') ∨ u = 'd' := by
    simpa [isUnitChar] using hu
  have hud : Char.isDigit u = false := by
    rcases hu4 with ((rfl | rfl) | rfl) | rfl <;> decide
  have hh : ∀ (l : List Char) (c : Char), (u :: l).head? = some c →
      Char.isDigit c = false := by
    intro l c hc
    obtain rfl : u = c := Option.some.inj hc
    exact hud
  obtain ⟨ht1, hd1⟩ := takeWhile_dropWhile_of_run Char.isDigit ds (u :: rest) hds
    (hh rest)
  obtain ⟨ht2, hd2⟩ := takeWhile_dropWhile_of_run Char.isDigit ds [u] hds (hh [])
  have hemp : ds.isEmpty = false := by
    cases ds with
    | nil => exact absurd rfl hne
    | cons a l => rfl
  refine ⟨?_, ?_, by decide, by decide⟩
  · simp only [parseAgeChars, ht1, hd1, ht2, hd2, hemp]
  · simp only [parseAgeChars, ht1, hd1, hemp]
    rcases hu4 with ((rfl | rfl) | rfl) | rfl <;> simp

/-- C10 witness: the trailing-character statements at the concrete digits
`90` followed by unit `s` and trailing `xy`. -/
theorem claim_c10_witness :
    parseAgeChars (['9', '0'] ++ 's' :: ['x', 'y']) = parseAgeChars (['9', '0'] ++ ['s'])
    ∧ (parseAgeChars (['9', '0'] ++ 's' :: ['x', 'y'])).isSome = true
    ∧ parse_age_string ("1h30m") = some 3600
    ∧ parse_age_string ("1hXYZ") = some 3600 :=
  claim_c10_age_trailing ['9', '0'] 's' ['x', 'y'] (by decide) (by decide) (by decide)

/-- C9: `extract_balanced_braces` counts braces inside string literals:
on the well-formed JSON object `{"a": "}"}` it returns the truncated
proper prefix `{"a": "}`, which is not valid JSON (the object is valid,
the extracted text is not). -/
theorem claim_c9_braces_in_strings :
    extract_balanced_braces ("\x7b\"a\": \"\x7d\"\x7d") = some ("\x7b\"a\": \"\x7d")
    ∧ (("\x7b\"a\": \"\x7d").toList).isPrefixOf (("\x7b\"a\": \"\x7d\"\x7d").toList) = true
    ∧ ("\x7b\"a\": \"\x7d") ≠ ("\x7b\"a\": \"\x7d\"\x7d")
    ∧ jsonValid ("\x7b\"a\": \"\x7d\"\x7d") = true
    ∧ jsonValid ("\x7b\"a\": \"\x7d") = false := by decide

end Mesh
